import Mathlib

/-!
Shallow embedding of the lockfile-guard linter (src/main.rs).

Lines are modelled as `List Char`.  Each Rust regex used by the linter is
modelled by a hand-written matcher over `List Char`; `Regex::is_match` is
modelled as "the pattern matches at some position of the line", with the
character preceding the position tracked for word-boundary tests.
Character classes model the regex classes restricted to ASCII, which is
the alphabet the linter's patterns and the spec's examples use.
-/

/-- Model of the regex word-character class (ASCII): letters, digits, underscore. -/
def isWordC (c : Char) : Bool :=
  (65 ≤ c.toNat && c.toNat ≤ 90) || (97 ≤ c.toNat && c.toNat ≤ 122) ||
  (48 ≤ c.toNat && c.toNat ≤ 57) || c.toNat = 95

/-- Model of the regex digit class `[0-9]`. -/
def isDigitC (c : Char) : Bool :=
  48 ≤ c.toNat && c.toNat ≤ 57

/-- Model of the ASCII letter class (used to state structural hypotheses). -/
def isAlphaC (c : Char) : Bool :=
  (65 ≤ c.toNat && c.toNat ≤ 90) || (97 ≤ c.toNat && c.toNat ≤ 122)

/-- Model of the regex whitespace class and of Rust whitespace trimming (ASCII part). -/
def isSpaceC (c : Char) : Bool :=
  c.toNat = 32 || c.toNat = 9 || c.toNat = 10 || c.toNat = 13 ||
  c.toNat = 11 || c.toNat = 12

/-- A regex word boundary holds before the current position when there is no
previous character (start of haystack) or the previous character is not a
word character; all patterns below place the boundary before a word character. -/
def atWordBoundary (prev : Option Char) : Bool :=
  match prev with
  | none => true
  | some c => !isWordC c

/-- A regex word boundary holds after a word character when the rest of the
haystack is empty or starts with a non-word character. -/
def wbAfter (s : List Char) : Bool :=
  match s with
  | [] => true
  | c :: _ => !isWordC c

/-- Strip a literal from the front of a list, returning the rest on success. -/
def stripLit : List Char → List Char → Option (List Char)
  | [], s => some s
  | _ :: _, [] => none
  | c :: cs, d :: ds => if c = d then stripLit cs ds else none

/-- Whether a list starts with the given literal. -/
def startsWithLit (lit s : List Char) : Bool :=
  (stripLit lit s).isSome

/-- Model of `\s+` followed by a pattern that cannot start with whitespace:
require one whitespace character, then drop the remaining whitespace greedily. -/
def dropSpaces1 (s : List Char) : Option (List Char) :=
  match s with
  | [] => none
  | c :: rest => if isSpaceC c then some (rest.dropWhile isSpaceC) else none

/-- Model of `[0-9]+` followed by a pattern that cannot start with a digit:
require one digit, then drop the remaining digits greedily. -/
def stripDigits1 (s : List Char) : Option (List Char) :=
  match s with
  | [] => none
  | c :: rest => if isDigitC c then some (rest.dropWhile isDigitC) else none

/-- Model of the alternation `($|&&|;|\||#)` at the current position. -/
def isTerminator (s : List Char) : Bool :=
  match s with
  | [] => true
  | c :: rest =>
    c = ';' || c = '|' || c = '#' ||
    (c = '&' && (match rest with | d :: _ => d = '&' | [] => false))

/-- Model of `(\s|$)` at the current position. -/
def spaceOrEnd (s : List Char) : Bool :=
  match s with
  | [] => true
  | c :: _ => isSpaceC c

/-- Model of a single `\s` (one whitespace character required). -/
def headIsSpace (s : List Char) : Bool :=
  match s with
  | [] => false
  | c :: _ => isSpaceC c

/-- Search every suffix of the haystack with a position-local predicate
that does not inspect the preceding character. -/
def anyTail (p : List Char → Bool) : List Char → Bool
  | [] => p []
  | c :: rest => p (c :: rest) || anyTail p rest

/-- Search every suffix of the haystack with a position-local matcher,
tracking the character immediately before the position for `\b` tests. -/
def existsMatch (p : Option Char → List Char → Bool) : Option Char → List Char → Bool
  | prev, [] => p prev []
  | prev, c :: rest => p prev (c :: rest) || existsMatch p (some c) rest

/-- Model of `str::contains` with a literal pattern / a literal-only regex. -/
def containsSub (pat : String) (l : List Char) : Bool :=
  anyTail (fun s => startsWithLit pat.toList s) l

/-- Model of Rust `str::trim` (ASCII whitespace). -/
def trim (l : List Char) : List Char :=
  ((l.dropWhile isSpaceC).reverse.dropWhile isSpaceC).reverse

/-- Whether the first character of a list equals the given character,
modelling `str::starts_with(char)`. -/
def headIs (c : Char) (s : List Char) : Bool :=
  match s with
  | [] => false
  | d :: _ => d = c

/-- Matcher for `\b(pnpm|yarn|bun)\b` at one position. -/
def wordMgrAt (prev : Option Char) (s : List Char) : Bool :=
  atWordBoundary prev &&
  ((match stripLit ("pnpm").toList s with
    | some r => wbAfter r
    | none => false) ||
   (match stripLit ("yarn").toList s with
    | some r => wbAfter r
    | none => false) ||
   (match stripLit ("bun").toList s with
    | some r => wbAfter r
    | none => false))

/-- Matcher for `\bnpm\s+ci\b` at one position. -/
def ciAt (prev : Option Char) (s : List Char) : Bool :=
  atWordBoundary prev &&
  (match stripLit ("npm").toList s with
   | some r =>
     (match dropSpaces1 r with
      | some r2 =>
        (match stripLit ("ci").toList r2 with
         | some r3 => wbAfter r3
         | none => false)
      | none => false)
   | none => false)

/-- Matcher for `\bnpm\s+(install|i)(\s|$)` at one position. -/
def installAt (prev : Option Char) (s : List Char) : Bool :=
  atWordBoundary prev &&
  (match stripLit ("npm").toList s with
   | some r =>
     (match dropSpaces1 r with
      | some r2 =>
        (match stripLit ("install").toList r2 with
         | some r3 => spaceOrEnd r3
         | none => false) ||
        (match stripLit ("i").toList r2 with
         | some r3 => spaceOrEnd r3
         | none => false)
      | none => false)
   | none => false)

/-- Matcher for the part of `\bnpm\s+(install|i)(\s+)?($|&&|;|\||#)`
after the literal `npm`. -/
def bareTail (s : List Char) : Bool :=
  match dropSpaces1 s with
  | some r =>
    (match stripLit ("install").toList r with
     | some r2 => isTerminator (r2.dropWhile isSpaceC)
     | none => false) ||
    (match stripLit ("i").toList r with
     | some r2 => isTerminator (r2.dropWhile isSpaceC)
     | none => false)
  | none => false

/-- Matcher for `\bnpm\s+(install|i)(\s+)?($|&&|;|\||#)` at one position. -/
def bareAt (prev : Option Char) (s : List Char) : Bool :=
  atWordBoundary prev &&
  (match stripLit ("npm").toList s with
   | some r => bareTail r
   | none => false)

/-- Matcher for `@[0-9]+\.[0-9]+` at one position. -/
def pinAt (s : List Char) : Bool :=
  match s with
  | [] => false
  | c :: rest =>
    if c = '@' then
      match stripDigits1 rest with
      | some r =>
        (match r with
         | '.' :: r2 => (stripDigits1 r2).isSome
         | _ => false)
      | none => false
    else false

/-- Matcher for `\bpnpm\s+install\b` at one position. -/
def pnpmInstallAt (prev : Option Char) (s : List Char) : Bool :=
  atWordBoundary prev &&
  (match stripLit ("pnpm").toList s with
   | some r =>
     (match dropSpaces1 r with
      | some r2 =>
        (match stripLit ("install").toList r2 with
         | some r3 => wbAfter r3
         | none => false)
      | none => false)
   | none => false)

/-- Matcher for `\bpnpm\s+add\s` at one position. -/
def pnpmAddAt (prev : Option Char) (s : List Char) : Bool :=
  atWordBoundary prev &&
  (match stripLit ("pnpm").toList s with
   | some r =>
     (match dropSpaces1 r with
      | some r2 =>
        (match stripLit ("add").toList r2 with
         | some r3 => headIsSpace r3
         | none => false)
      | none => false)
   | none => false)

/-- Matcher for `\byarn(\s+install)?(\s+)?($|&&|;|\||#)` at one position. -/
def yarnInstallAt (prev : Option Char) (s : List Char) : Bool :=
  atWordBoundary prev &&
  (match stripLit ("yarn").toList s with
   | some r =>
     (match dropSpaces1 r with
      | some r2 =>
        (match stripLit ("install").toList r2 with
         | some r3 => isTerminator (r3.dropWhile isSpaceC)
         | none => false)
      | none => false) ||
     isTerminator (r.dropWhile isSpaceC)
   | none => false)

/-- Matcher for `\byarn\s+(global\s+)?add\s` at one position. -/
def yarnAddAt (prev : Option Char) (s : List Char) : Bool :=
  atWordBoundary prev &&
  (match stripLit ("yarn").toList s with
   | some r =>
     (match dropSpaces1 r with
      | some r2 =>
        (match stripLit ("global").toList r2 with
         | some r3 =>
           (match dropSpaces1 r3 with
            | some r4 =>
              (match stripLit ("add").toList r4 with
               | some r5 => headIsSpace r5
               | none => false)
            | none => false)
         | none => false) ||
        (match stripLit ("add").toList r2 with
         | some r3 => headIsSpace r3
         | none => false)
      | none => false)
   | none => false)

/-- Matcher for `\bbun\s+install\b` at one position. -/
def bunInstallAt (prev : Option Char) (s : List Char) : Bool :=
  atWordBoundary prev &&
  (match stripLit ("bun").toList s with
   | some r =>
     (match dropSpaces1 r with
      | some r2 =>
        (match stripLit ("install").toList r2 with
         | some r3 => wbAfter r3
         | none => false)
      | none => false)
   | none => false)

/-- Matcher for `\bbun\s+add\s` at one position. -/
def bunAddAt (prev : Option Char) (s : List Char) : Bool :=
  atWordBoundary prev &&
  (match stripLit ("bun").toList s with
   | some r =>
     (match dropSpaces1 r with
      | some r2 =>
        (match stripLit ("add").toList r2 with
         | some r3 => headIsSpace r3
         | none => false)
      | none => false)
   | none => false)

/-- Model of `Regex::new(r"\b(pnpm|yarn|bun)\b").is_match(line)`. -/
def otherManagerWord (line : List Char) : Bool :=
  existsMatch wordMgrAt none line

/-- Model of `Regex::new(r"\bnpm\s+ci\b").is_match(line)`. -/
def npmCiRe (line : List Char) : Bool :=
  existsMatch ciAt none line

/-- Model of `Regex::new(r"\bnpm\s+(install|i)(\s|$)").is_match(line)`. -/
def npmInstallRe (line : List Char) : Bool :=
  existsMatch installAt none line

/-- Model of the bare-install regex match on a line. -/
def npmBareInstallRe (line : List Char) : Bool :=
  existsMatch bareAt none line

/-- Model of `Regex::new(r"@[0-9]+\.[0-9]+").is_match(line)`. -/
def versionPin (line : List Char) : Bool :=
  anyTail pinAt line

/-- Model of `Regex::new(r"--frozen-lockfile").is_match(line)`. -/
def frozenLockfile (line : List Char) : Bool :=
  containsSub ("--frozen-lockfile") line

/-- Model of `Regex::new(r"--(frozen-lockfile|immutable)").is_match(line)`. -/
def yarnFrozen (line : List Char) : Bool :=
  containsSub ("--frozen-lockfile") line || containsSub ("--immutable") line

/-- Model of `Regex::new(r"\bpnpm\s+install\b").is_match(line)`. -/
def pnpmInstallRe (line : List Char) : Bool :=
  existsMatch pnpmInstallAt none line

/-- Model of `Regex::new(r"\bpnpm\s+add\s").is_match(line)`. -/
def pnpmAddRe (line : List Char) : Bool :=
  existsMatch pnpmAddAt none line

/-- Model of the yarn bulk-install regex match on a line. -/
def yarnInstallRe (line : List Char) : Bool :=
  existsMatch yarnInstallAt none line

/-- Model of `Regex::new(r"\byarn\s+(global\s+)?add\s").is_match(line)`. -/
def yarnAddRe (line : List Char) : Bool :=
  existsMatch yarnAddAt none line

/-- Model of `Regex::new(r"\bbun\s+install\b").is_match(line)`. -/
def bunInstallRe (line : List Char) : Bool :=
  existsMatch bunInstallAt none line

/-- Model of `Regex::new(r"\bbun\s+add\s").is_match(line)`. -/
def bunAddRe (line : List Char) : Bool :=
  existsMatch bunAddAt none line

/-- The `Violation` struct of the linter. -/
structure Violation where
  line_num : Nat
  message : List Char
  line_content : List Char
deriving DecidableEq

/-- Message pushed by `check_npm` for a bare `npm install`. -/
def npmCiMsg : List Char :=
  ("Use \x27npm ci\x27 instead of \x27npm install\x27 for lockfile-based installations").toList

/-- Message pushed by `check_npm` for an unpinned npm package installation. -/
def npmPinMsg : List Char :=
  ("npm package installation without version pin (use \x27npm i package@version\x27)").toList

/-- Message pushed by `check_pnpm` for `pnpm install` without a frozen lockfile. -/
def pnpmInstallMsg : List Char :=
  ("Use \x27pnpm install --frozen-lockfile\x27 to respect lockfile").toList

/-- Message pushed by `check_pnpm` for an unpinned pnpm package installation. -/
def pnpmPinMsg : List Char :=
  ("pnpm package installation without version pin (use \x27pnpm add package@version\x27)").toList

/-- Message pushed by `check_yarn` for a bare `yarn` or `yarn install`. -/
def yarnInstallMsg : List Char :=
  ("Use \x27yarn install --frozen-lockfile\x27 to respect lockfile").toList

/-- Message pushed by `check_yarn` for an unpinned yarn package installation. -/
def yarnPinMsg : List Char :=
  ("yarn package installation without version pin (use \x27yarn add package@version\x27)").toList

/-- Message pushed by `check_bun` for `bun install` without a frozen lockfile. -/
def bunInstallMsg : List Char :=
  ("Use \x27bun install --frozen-lockfile\x27 to respect lockfile").toList

/-- Message pushed by `check_bun` for an unpinned bun package installation. -/
def bunPinMsg : List Char :=
  ("bun package installation without version pin (use \x27bun add package@version\x27)").toList

/-- Model of `check_npm` from src/main.rs. -/
def check_npm (line : List Char) (line_num : Nat) : List Violation :=
  if otherManagerWord line then []
  else if npmCiRe line then []
  else if npmInstallRe line then
    if versionPin line then []
    else if npmBareInstallRe line then
      [{ line_num := line_num, message := npmCiMsg, line_content := trim line }]
    else
      [{ line_num := line_num, message := npmPinMsg, line_content := trim line }]
  else []

/-- Model of `check_pnpm` from src/main.rs. -/
def check_pnpm (line : List Char) (line_num : Nat) : List Violation :=
  (if pnpmInstallRe line && !frozenLockfile line then
    [{ line_num := line_num, message := pnpmInstallMsg, line_content := trim line }]
   else []) ++
  (if pnpmAddRe line && !versionPin line then
    [{ line_num := line_num, message := pnpmPinMsg, line_content := trim line }]
   else [])

/-- Model of `check_yarn` from src/main.rs. -/
def check_yarn (line : List Char) (line_num : Nat) : List Violation :=
  (if yarnInstallRe line && !yarnFrozen line then
    [{ line_num := line_num, message := yarnInstallMsg, line_content := trim line }]
   else []) ++
  (if yarnAddRe line && !versionPin line then
    [{ line_num := line_num, message := yarnPinMsg, line_content := trim line }]
   else [])

/-- Model of `check_bun` from src/main.rs. -/
def check_bun (line : List Char) (line_num : Nat) : List Violation :=
  (if bunInstallRe line && !frozenLockfile line then
    [{ line_num := line_num, message := bunInstallMsg, line_content := trim line }]
   else []) ++
  (if bunAddRe line && !versionPin line then
    [{ line_num := line_num, message := bunPinMsg, line_content := trim line }]
   else [])

/-- Model of `is_comment_or_placeholder` from src/main.rs. -/
def is_comment_or_placeholder (line : List Char) : Bool :=
  let trimmed := trim line
  headIs '#' trimmed ||
  containsSub ("<package>") trimmed ||
  containsSub ("<version>") trimmed ||
  headIs '`' trimmed ||
  headIs '>' trimmed ||
  headIs '-' trimmed

/-- One non-skipped line dispatched to the four managers, in the source's order. -/
def checkLine (line : List Char) (n : Nat) : List Violation :=
  check_npm line n ++ check_pnpm line n ++ check_yarn line n ++ check_bun line n

/-- Whether the trimmed line starts with the three-character fence marker. -/
def isFenceLine (line : List Char) : Bool :=
  startsWithLit ("```").toList (trim line)

/-- The loop body of `check_file`: fence tracking, skipping, and rule dispatch. -/
def check_file_go : Bool → Nat → List (List Char) → List Violation
  | _, _, [] => []
  | in_code_block, n, line :: rest =>
    if isFenceLine line then check_file_go (!in_code_block) (n + 1) rest
    else if in_code_block then check_file_go in_code_block (n + 1) rest
    else if is_comment_or_placeholder line then check_file_go in_code_block (n + 1) rest
    else checkLine line n ++ check_file_go in_code_block (n + 1) rest

/-- Split at every newline character, keeping all pieces. -/
def splitOnNl : List Char → List (List Char)
  | [] => [[]]
  | c :: rest =>
    if c = '\n' then [] :: splitOnNl rest
    else
      match splitOnNl rest with
      | [] => [[c]]
      | l :: ls => (c :: l) :: ls

/-- Drop one trailing carriage return, as Rust does for `\r\n` line endings. -/
def stripCr (l : List Char) : List Char :=
  match l.reverse with
  | '\r' :: r => r.reverse
  | _ => l

/-- Model of Rust `str::lines`: split on newlines, strip a `\r` before each
newline, and do not yield a final empty line for a trailing newline. -/
def rustLines (s : List Char) : List (List Char) :=
  match (splitOnNl s).reverse with
  | [] => []
  | last :: revInit =>
    let initLines := revInit.reverse.map stripCr
    if last = [] then initLines else initLines ++ [last]

/-- Model of `check_file` from src/main.rs: scan all lines with 1-based
numbering and per-file fence state. -/
def check_file (content : List Char) : List Violation :=
  check_file_go false 1 (rustLines content)

/-- The `LintResult` struct of the linter. -/
structure LintResult where
  violations_found : Nat
  files_checked : Nat
deriving DecidableEq

/-- One eligible file met by the traversal in `lint_files`: the outcome of
`fs::read_to_string` (`none` models an unreadable or non-UTF-8 file) and
whether the file is matched by a collected gitignore. -/
structure FileEntry where
  readResult : Option (List Char)
  ignored : Bool

/-- The body of the `lint_files` loop for one eligible file, from src/main.rs:
`files_checked` is incremented first, then the file is read and scanned, and
violations are counted unless the read failed or the file is gitignored. -/
def lintStep (acc : LintResult) (f : FileEntry) : LintResult :=
  let fc := acc.files_checked + 1
  match f.readResult with
  | none => { violations_found := acc.violations_found, files_checked := fc }
  | some content =>
    let violations := check_file content
    if violations.isEmpty then
      { violations_found := acc.violations_found, files_checked := fc }
    else if f.ignored then
      { violations_found := acc.violations_found, files_checked := fc }
    else
      { violations_found := acc.violations_found + violations.length, files_checked := fc }

/-- Model of `lint_files` from src/main.rs, over the list of eligible files
produced by the external traversal. -/
def lint_files (files : List FileEntry) : LintResult :=
  files.foldl lintStep { violations_found := 0, files_checked := 0 }

/-! ### Character-class lemmas -/

theorem word_not_space {c : Char} (h : isWordC c = true) : isSpaceC c = false := by
  simp only [isWordC, Bool.or_eq_true, Bool.and_eq_true, decide_eq_true_eq] at h
  simp only [isSpaceC, Bool.or_eq_false_iff, decide_eq_false_iff_not]
  omega

theorem alpha_word {c : Char} (h : isAlphaC c = true) : isWordC c = true := by
  simp only [isAlphaC, Bool.or_eq_true, Bool.and_eq_true, decide_eq_true_eq] at h
  simp only [isWordC, Bool.or_eq_true, Bool.and_eq_true, decide_eq_true_eq]
  omega

theorem word_ne_at {c : Char} (h : isWordC c = true) : c ≠ '@' := by
  intro hc
  subst hc
  exact absurd h (by decide)

theorem word_term_false {c : Char} (r : List Char) (h : isWordC c = true) :
    isTerminator (c :: r) = false := by
  have h1 : c ≠ ';' := by rintro rfl; exact absurd h (by decide)
  have h2 : c ≠ '|' := by rintro rfl; exact absurd h (by decide)
  have h3 : c ≠ '#' := by rintro rfl; exact absurd h (by decide)
  have h4 : c ≠ '&' := by rintro rfl; exact absurd h (by decide)
  simp [isTerminator, h1, h2, h3, h4]

/-! ### List and matcher lemmas -/

theorem stripLit_some_iff {lit s r : List Char} : stripLit lit s = some r ↔ s = lit ++ r := by
  induction lit generalizing s with
  | nil => simp [stripLit]
  | cons c cs ih =>
    cases s with
    | nil => simp [stripLit]
    | cons d ds =>
      by_cases h : c = d
      · subst h
        simp [stripLit, ih]
      · simp only [stripLit, if_neg h, List.cons_append, List.cons.injEq]
        constructor
        · intro h'; cases h'
        · rintro ⟨h1, h2⟩; exact ((h h1.symm).elim)

theorem all_of_stripLit {lit s r : List Char} {p : Char → Bool}
    (hs : stripLit lit s = some r) (h : s.all p = true) : r.all p = true := by
  rw [stripLit_some_iff] at hs
  subst hs
  rw [List.all_append, Bool.and_eq_true] at h
  exact h.2

theorem dropSpaces1_none {s : List Char} (h : s.all (fun c => !isSpaceC c) = true) :
    dropSpaces1 s = none := by
  cases s with
  | nil => rfl
  | cons c r =>
    simp only [List.all_cons, Bool.and_eq_true, Bool.not_eq_true'] at h
    simp [dropSpaces1, h.1]

theorem dropWhile_of_head {c : Char} {r : List Char} (h : isSpaceC c = false) :
    (c :: r).dropWhile isSpaceC = c :: r := by
  simp [List.dropWhile_cons, h]

theorem dropWhile_all {l r : List Char} {p : Char → Bool} (h : l.all p = true) :
    (l ++ r).dropWhile p = r.dropWhile p := by
  induction l with
  | nil => rfl
  | cons c l' ih =>
    simp only [List.all_cons, Bool.and_eq_true] at h
    simp [List.dropWhile_cons, h.1, ih h.2]

theorem anyTail_append_right {p : List Char → Bool} {l2 : List Char} (l1 : List Char)
    (h : anyTail p l2 = true) : anyTail p (l1 ++ l2) = true := by
  induction l1 with
  | nil => simpa using h
  | cons c r ih => simp [anyTail, ih]

theorem pin_no_at {l : List Char} (h : ∀ x ∈ l, x ≠ '@') : anyTail pinAt l = false := by
  induction l with
  | nil => rfl
  | cons c r ih =>
    have hc : c ≠ '@' := h c (by simp)
    simp [anyTail, pinAt, hc, ih (fun x hx => h x (by simp [hx]))]

theorem pinAt_digits {M N : List Char} (hM1 : M ≠ []) (hM2 : M.all isDigitC = true)
    (hN1 : N ≠ []) (hN2 : N.all isDigitC = true) :
    pinAt ('@' :: (M ++ '.' :: N)) = true := by
  cases M with
  | nil => exact absurd rfl hM1
  | cons d M' =>
    simp only [List.all_cons, Bool.and_eq_true] at hM2
    cases N with
    | nil => exact absurd rfl hN1
    | cons e N' =>
      simp only [List.all_cons, Bool.and_eq_true] at hN2
      have hdot : isDigitC ('.') = false := by decide
      simp [pinAt, stripDigits1, hM2.1, dropWhile_all hM2.2, List.dropWhile_cons, hdot, hN2.1]

theorem bareTail_false {s : List Char} (h : s.all (fun c => !isSpaceC c) = true) :
    bareTail s = false := by
  simp [bareTail, dropSpaces1_none h]

theorem bareAt_false {prev : Option Char} {s : List Char}
    (h : s.all (fun c => !isSpaceC c) = true) : bareAt prev s = false := by
  unfold bareAt
  cases hs : stripLit (("npm").toList) s with
  | none => simp
  | some r => simp [bareTail_false (all_of_stripLit hs h)]

theorem existsMatch_bareAt_false {l : List Char} (h : l.all (fun c => !isSpaceC c) = true) :
    ∀ prev, existsMatch bareAt prev l = false := by
  induction l with
  | nil =>
    intro prev
    exact bareAt_false h
  | cons c r ih =>
    intro prev
    have hc := h
    simp only [List.all_cons, Bool.and_eq_true] at h
    simp [existsMatch, bareAt_false hc, ih h.2]

theorem ciAt_false {prev : Option Char} {s : List Char}
    (h : s.all (fun c => !isSpaceC c) = true) : ciAt prev s = false := by
  unfold ciAt
  cases hs : stripLit (("npm").toList) s with
  | none => simp
  | some r => simp [dropSpaces1_none (all_of_stripLit hs h)]

theorem existsMatch_ciAt_false {l : List Char} (h : l.all (fun c => !isSpaceC c) = true) :
    ∀ prev, existsMatch ciAt prev l = false := by
  induction l with
  | nil =>
    intro prev
    exact ciAt_false h
  | cons c r ih =>
    intro prev
    have hc := h
    simp only [List.all_cons, Bool.and_eq_true] at h
    simp [existsMatch, ciAt_false hc, ih h.2]

theorem term_dropWhile_word {l : List Char} (h1 : l ≠ []) (h2 : l.all isWordC = true) :
    isTerminator (l.dropWhile isSpaceC) = false := by
  cases l with
  | nil => exact absurd rfl h1
  | cons c r =>
    simp only [List.all_cons, Bool.and_eq_true] at h2
    rw [dropWhile_of_head (word_not_space h2.1)]
    exact word_term_false r h2.1

theorem check_npm_eval {line : List Char} (n : Nat)
    (h1 : otherManagerWord line = false) (h2 : npmCiRe line = false)
    (h3 : npmInstallRe line = true) (h4 : versionPin line = false)
    (h5 : npmBareInstallRe line = false) :
    check_npm line n = [{ line_num := n, message := npmPinMsg, line_content := trim line }] := by
  simp [check_npm, h1, h2, h3, h4, h5]

theorem check_npm_pin_empty {line : List Char} (n : Nat) (h : versionPin line = true) :
    check_npm line n = [] := by
  simp [check_npm, h, ite_self]

theorem check_npm_fields {line : List Char} {n : Nat} {v : Violation}
    (hv : v ∈ check_npm line n) : v.line_num = n ∧ v.line_content = trim line := by
  unfold check_npm at hv
  split at hv
  · cases hv
  · split at hv
    · cases hv
    · split at hv
      · split at hv
        · cases hv
        · split at hv
          · simp at hv; subst hv; exact ⟨rfl, rfl⟩
          · simp at hv; subst hv; exact ⟨rfl, rfl⟩
      · cases hv

theorem check_pnpm_fields {line : List Char} {n : Nat} {v : Violation}
    (hv : v ∈ check_pnpm line n) : v.line_num = n ∧ v.line_content = trim line := by
  unfold check_pnpm at hv
  rcases List.mem_append.mp hv with h | h
  · split at h
    · simp at h; subst h; exact ⟨rfl, rfl⟩
    · cases h
  · split at h
    · simp at h; subst h; exact ⟨rfl, rfl⟩
    · cases h

theorem check_yarn_fields {line : List Char} {n : Nat} {v : Violation}
    (hv : v ∈ check_yarn line n) : v.line_num = n ∧ v.line_content = trim line := by
  unfold check_yarn at hv
  rcases List.mem_append.mp hv with h | h
  · split at h
    · simp at h; subst h; exact ⟨rfl, rfl⟩
    · cases h
  · split at h
    · simp at h; subst h; exact ⟨rfl, rfl⟩
    · cases h

theorem check_bun_fields {line : List Char} {n : Nat} {v : Violation}
    (hv : v ∈ check_bun line n) : v.line_num = n ∧ v.line_content = trim line := by
  unfold check_bun at hv
  rcases List.mem_append.mp hv with h | h
  · split at h
    · simp at h; subst h; exact ⟨rfl, rfl⟩
    · cases h
  · split at h
    · simp at h; subst h; exact ⟨rfl, rfl⟩
    · cases h

theorem checkLine_fields {line : List Char} {n : Nat} {v : Violation}
    (hv : v ∈ checkLine line n) : v.line_num = n ∧ v.line_content = trim line := by
  unfold checkLine at hv
  simp only [List.mem_append] at hv
  rcases hv with ((h | h) | h) | h
  · exact check_npm_fields h
  · exact check_pnpm_fields h
  · exact check_yarn_fields h
  · exact check_bun_fields h

theorem check_file_go_mem {v : Violation} :
    ∀ (ls : List (List Char)) (b : Bool) (n : Nat), v ∈ check_file_go b n ls →
    ∃ i l, ls[i]? = some l ∧ v.line_num = n + i ∧ v.line_content = trim l := by
  intro ls
  induction ls with
  | nil => intro b n hv; cases hv
  | cons line rest ih =>
    intro b n hv
    unfold check_file_go at hv
    split at hv
    · rcases ih _ _ hv with ⟨i, l, h1, h2, h3⟩
      exact ⟨i + 1, l, by simpa using h1, by omega, h3⟩
    · split at hv
      · rcases ih _ _ hv with ⟨i, l, h1, h2, h3⟩
        exact ⟨i + 1, l, by simpa using h1, by omega, h3⟩
      · split at hv
        · rcases ih _ _ hv with ⟨i, l, h1, h2, h3⟩
          exact ⟨i + 1, l, by simpa using h1, by omega, h3⟩
        · rcases List.mem_append.mp hv with h | h
          · rcases checkLine_fields h with ⟨h2, h3⟩
            exact ⟨0, line, by simp, by omega, h3⟩
          · rcases ih _ _ h with ⟨i, l, h1, h2, h3⟩
            exact ⟨i + 1, l, by simpa using h1, by omega, h3⟩

theorem go_skip_middle {ls : List (List Char)} (hm : ∀ l ∈ ls, isFenceLine l = false)
    (n : Nat) (rest : List (List Char)) :
    check_file_go true n (ls ++ rest) = check_file_go true (n + ls.length) rest := by
  induction ls generalizing n with
  | nil => simp
  | cons line ls' ih =>
    have h1 : isFenceLine line = false := hm line (by simp)
    have h2 : check_file_go true n (line :: (ls' ++ rest)) =
        check_file_go true (n + 1) (ls' ++ rest) := by
      simp [check_file_go, h1]
    rw [List.cons_append, h2, ih (fun l hl => hm l (by simp [hl]))]
    congr 1
    simp
    omega

theorem lintStep_delta (v c : Nat) (f : FileEntry) :
    lintStep { violations_found := v, files_checked := c } f =
    { violations_found := v + (lintStep { violations_found := 0, files_checked := 0 } f).violations_found,
      files_checked := c + 1 } := by
  rcases f with ⟨rr, ig⟩
  cases rr with
  | none => simp [lintStep]
  | some content =>
    simp only [lintStep]
    split
    · simp
    · split
      · simp
      · simp

theorem foldl_lint_v (l : List FileEntry) (v c : Nat) :
    (List.foldl lintStep { violations_found := v, files_checked := c } l).violations_found =
    v + (List.foldl lintStep { violations_found := 0, files_checked := 0 } l).violations_found := by
  induction l generalizing v c with
  | nil => simp
  | cons f l' ih =>
    simp only [List.foldl_cons]
    rw [lintStep_delta, lintStep_delta 0 0 f]
    simp only [Nat.zero_add]
    rw [ih, ih (lintStep { violations_found := 0, files_checked := 0 } f).violations_found 1]
    omega

theorem foldl_lint_c (l : List FileEntry) (v c : Nat) :
    (List.foldl lintStep { violations_found := v, files_checked := c } l).files_checked =
    c + (List.foldl lintStep { violations_found := 0, files_checked := 0 } l).files_checked := by
  induction l generalizing v c with
  | nil => simp
  | cons f l' ih =>
    simp only [List.foldl_cons]
    rw [lintStep_delta, lintStep_delta 0 0 f]
    simp only [Nat.zero_add]
    rw [ih, ih (lintStep { violations_found := 0, files_checked := 0 } f).violations_found 1]
    omega

theorem all_imp {p q : Char → Bool} {l : List Char} (hpq : ∀ c, p c = true → q c = true)
    (h : l.all p = true) : l.all q = true := by
  rw [List.all_eq_true] at *
  exact fun x hx => hpq x (h x hx)

theorem alpha_not_digit {c : Char} (h : isAlphaC c = true) : isDigitC c = false := by
  simp only [isAlphaC, Bool.or_eq_true, Bool.and_eq_true, decide_eq_true_eq] at h
  simp only [isDigitC, Bool.and_eq_false_iff, decide_eq_false_iff_not]
  omega

/-! ### Claim theorems -/

/-- C1, counterexample: a single unreadable file (read fails) is nevertheless
counted in `files_checked` — the counter is incremented before the read is
attempted — so the claim that such a file is excluded from `files_checked`
is false on the code. -/
theorem c1_counterexample :
    (lint_files [{ readResult := none, ignored := false }]).files_checked = 1 ∧
    (lint_files [{ readResult := none, ignored := false }]).violations_found = 0 :=
  ⟨rfl, rfl⟩

/-- C1, amended: a file whose content cannot be read contributes nothing to
`violations_found` and the scan of all remaining files proceeds unchanged,
but the file IS counted in `files_checked` (one more than without it). -/
theorem c1_unreadable_skipped (e : FileEntry) (he : e.readResult = none)
    (pre post : List FileEntry) :
    (lint_files (pre ++ e :: post)).violations_found =
      (lint_files (pre ++ post)).violations_found ∧
    (lint_files (pre ++ e :: post)).files_checked =
      (lint_files (pre ++ post)).files_checked + 1 := by
  rcases e with ⟨rr, ig⟩
  simp only at he
  subst he
  unfold lint_files
  rw [List.foldl_append, List.foldl_append, List.foldl_cons]
  generalize List.foldl lintStep { violations_found := 0, files_checked := 0 } pre = A
  rcases A with ⟨av, ac⟩
  have hstep : lintStep { violations_found := av, files_checked := ac }
      ⟨none, ig⟩ = { violations_found := av, files_checked := ac + 1 } := by
    simp [lintStep]
  rw [hstep]
  constructor
  · rw [foldl_lint_v post av (ac + 1), foldl_lint_v post av ac]
  · rw [foldl_lint_c post av (ac + 1), foldl_lint_c post av ac]
    omega

/-- C1 witness: instantiation of the amended theorem with one readable file
with violations before and after the unreadable file. -/
theorem c1_unreadable_skipped_witness :
    ((⟨none, false⟩ : FileEntry).readResult = none) ∧
    ((lint_files ([⟨some (("npm install").toList), false⟩] ++
        (⟨none, false⟩ : FileEntry) :: [⟨some (("yarn add x").toList), false⟩])).violations_found =
      (lint_files ([⟨some (("npm install").toList), false⟩] ++
        [⟨some (("yarn add x").toList), false⟩])).violations_found ∧
    (lint_files ([⟨some (("npm install").toList), false⟩] ++
        (⟨none, false⟩ : FileEntry) :: [⟨some (("yarn add x").toList), false⟩])).files_checked =
      (lint_files ([⟨some (("npm install").toList), false⟩] ++
        [⟨some (("yarn add x").toList), false⟩])).files_checked + 1) :=
  ⟨rfl, c1_unreadable_skipped ⟨none, false⟩ rfl _ _⟩

/-- C3: the yarn rule fires on bare `yarn` and on `yarn install` (also when
followed by `&&`, `;`, `|`, `#`), is silenced by `--frozen-lockfile` or
`--immutable`, flags `yarn add bar` and allows `yarn add bar@2.0.0`. -/
theorem c3_yarn_rule (n : Nat) :
    check_yarn (("yarn").toList) n =
      [{ line_num := n, message := yarnInstallMsg, line_content := ("yarn").toList }] ∧
    check_yarn (("yarn install").toList) n =
      [{ line_num := n, message := yarnInstallMsg, line_content := ("yarn install").toList }] ∧
    check_yarn (("yarn --frozen-lockfile").toList) n = [] ∧
    check_yarn (("yarn install --frozen-lockfile").toList) n = [] ∧
    check_yarn (("yarn --immutable").toList) n = [] ∧
    check_yarn (("yarn install --immutable").toList) n = [] ∧
    check_yarn (("yarn add bar").toList) n =
      [{ line_num := n, message := yarnPinMsg, line_content := ("yarn add bar").toList }] ∧
    check_yarn (("yarn add bar@2.0.0").toList) n = [] ∧
    check_yarn (("yarn && make").toList) n =
      [{ line_num := n, message := yarnInstallMsg, line_content := ("yarn && make").toList }] ∧
    check_yarn (("yarn install; echo done").toList) n =
      [{ line_num := n, message := yarnInstallMsg, line_content := ("yarn install; echo done").toList }] ∧
    check_yarn (("yarn | tee log").toList) n =
      [{ line_num := n, message := yarnInstallMsg, line_content := ("yarn | tee log").toList }] ∧
    check_yarn (("yarn # comment").toList) n =
      [{ line_num := n, message := yarnInstallMsg, line_content := ("yarn # comment").toList }] := by
  refine ⟨?_, ?_, ?_, ?_, ?_, ?_, ?_, ?_, ?_, ?_, ?_, ?_⟩ <;> rfl

/-- C5: a line in which `pnpm`, `yarn` or `bun` occurs as a whole word
produces no violations from the npm rule module, whatever else is on it. -/
theorem c5_cross_manager (line : List Char) (n : Nat)
    (h : otherManagerWord line = true) : check_npm line n = [] := by
  simp [check_npm, h]

/-- C5 witness: a line with both a `pnpm` word and an unpinned npm install. -/
theorem c5_cross_manager_witness :
    otherManagerWord (("pnpm install && npm install foo").toList) = true ∧
    check_npm (("pnpm install && npm install foo").toList) 1 = [] :=
  ⟨rfl, c5_cross_manager _ 1 rfl⟩

/-- C9: a line matched by the `npm ci` pattern produces no violations from
the npm rule module, even if it also contains an unpinned npm install. -/
theorem c9_npm_ci (line : List Char) (n : Nat)
    (h : npmCiRe line = true) : check_npm line n = [] := by
  cases h1 : otherManagerWord line with
  | true => simp [check_npm, h1]
  | false => simp [check_npm, h1, h]

/-- C9 witness: `npm ci && npm install foo` yields no npm violations. -/
theorem c9_npm_ci_witness :
    npmCiRe (("npm ci && npm install foo").toList) = true ∧
    check_npm (("npm ci && npm install foo").toList) 1 = [] :=
  ⟨rfl, c9_npm_ci _ 1 rfl⟩

/-- C10: when the version-pin pattern `@digits.digits` matches anywhere on
the line, the pnpm, yarn and bun rule modules never produce their
unpinned-add violation for that line. -/
theorem c10_pin_anywhere (line : List Char) (n : Nat) (h : versionPin line = true) :
    (∀ v ∈ check_pnpm line n, v.message ≠ pnpmPinMsg) ∧
    (∀ v ∈ check_yarn line n, v.message ≠ yarnPinMsg) ∧
    (∀ v ∈ check_bun line n, v.message ≠ bunPinMsg) := by
  refine ⟨?_, ?_, ?_⟩ <;> intro v hv
  · unfold check_pnpm at hv
    simp only [h, Bool.not_true, Bool.and_false, if_false, List.append_nil] at hv
    split at hv
    · simp at hv; subst hv
      exact (by decide : pnpmInstallMsg ≠ pnpmPinMsg)
    · cases hv
  · unfold check_yarn at hv
    simp only [h, Bool.not_true, Bool.and_false, if_false, List.append_nil] at hv
    split at hv
    · simp at hv; subst hv
      exact (by decide : yarnInstallMsg ≠ yarnPinMsg)
    · cases hv
  · unfold check_bun at hv
    simp only [h, Bool.not_true, Bool.and_false, if_false, List.append_nil] at hv
    split at hv
    · simp at hv; subst hv
      exact (by decide : bunInstallMsg ≠ bunPinMsg)
    · cases hv

/-- C10 witness: an add invocation with an `@1.2` token elsewhere on the line
is not flagged as an unpinned add. -/
theorem c10_pin_anywhere_witness :
    versionPin (("pnpm add foo && echo bar@1.2").toList) = true ∧
    (∀ v ∈ check_pnpm (("pnpm add foo && echo bar@1.2").toList) 1,
      v.message ≠ pnpmPinMsg) :=
  ⟨rfl, (c10_pin_anywhere (("pnpm add foo && echo bar@1.2").toList) 1 rfl).1⟩

/-- C6: a line satisfying the exemption filter is skipped by the scanner
loop — it contributes no violations, whatever its remaining content — and
in particular a file consisting of `# npm install` yields no violations. -/
theorem c6_exemption (line : List Char) (inCode : Bool) (n : Nat) (rest : List (List Char))
    (h : is_comment_or_placeholder line = true) :
    (∃ b, check_file_go inCode n (line :: rest) = check_file_go b (n + 1) rest) ∧
    check_file (("# npm install").toList) = [] := by
  constructor
  · cases hf : isFenceLine line with
    | true => exact ⟨!inCode, by simp [check_file_go, hf]⟩
    | false =>
      cases inCode with
      | true => exact ⟨true, by simp [check_file_go, hf]⟩
      | false => exact ⟨false, by simp [check_file_go, hf, h]⟩
  · rfl

/-- C6 witness: the comment line `# npm install` is exempt and skipped. -/
theorem c6_exemption_witness :
    is_comment_or_placeholder (("# npm install").toList) = true ∧
    (∃ b, check_file_go false 1 ((("# npm install").toList) :: []) = check_file_go b 2 []) :=
  ⟨rfl, (c6_exemption (("# npm install").toList) false 1 [] rfl).1⟩

/-- C7: a fence-marker line toggles the code-block state and itself yields
no violation, and every line strictly between two fence markers is skipped
entirely, regardless of content. -/
theorem c7_fence (f1 f2 : List Char) (ls rest : List (List Char)) (n : Nat)
    (hf1 : isFenceLine f1 = true) (hf2 : isFenceLine f2 = true)
    (hm : ∀ l ∈ ls, isFenceLine l = false) :
    check_file_go false n (f1 :: (ls ++ f2 :: rest)) =
    check_file_go false (n + ls.length + 2) rest := by
  have h1 : check_file_go false n (f1 :: (ls ++ f2 :: rest)) =
      check_file_go true (n + 1) (ls ++ f2 :: rest) := by
    simp [check_file_go, hf1]
  rw [h1, go_skip_middle hm]
  have h3 : check_file_go true (n + 1 + ls.length) (f2 :: rest) =
      check_file_go false (n + 1 + ls.length + 1) rest := by
    simp [check_file_go, hf2]
  rw [h3]
  congr 1
  omega

/-- C7 witness: a fenced block containing `npm install` yields no violations. -/
theorem c7_fence_witness :
    isFenceLine (("```").toList) = true ∧
    check_file_go false 1 ((("```").toList) ::
        ([("npm install").toList] ++ (("```").toList) :: [])) =
      check_file_go false (1 + 1 + 2) [] :=
  ⟨rfl, c7_fence _ _ _ [] 1 rfl rfl (by decide)⟩

/-- C8: every violation the scanner returns carries the 1-based number of
the line whose trimmed text is its `line_content`. -/
theorem c8_line_invariant (content : List Char) (v : Violation)
    (hv : v ∈ check_file content) :
    ∃ l, (rustLines content)[v.line_num - 1]? = some l ∧ v.line_content = trim l := by
  rcases check_file_go_mem (rustLines content) false 1 hv with ⟨i, l, h1, h2, h3⟩
  refine ⟨l, ?_, h3⟩
  rw [h2]
  have he : 1 + i - 1 = i := by omega
  rw [he]
  exact h1

/-- C8 witness: the first violation of a two-line file points back at the
trim of line 1. -/
theorem c8_line_invariant_witness :
    ((⟨1, npmPinMsg, ("npm install foo").toList⟩ : Violation) ∈
      check_file (("npm install foo\nyarn add bar").toList)) ∧
    (∃ l, (rustLines (("npm install foo\nyarn add bar").toList))[(1 : Nat) - 1]? = some l ∧
      (("npm install foo").toList) = trim l) :=
  ⟨by decide,
    c8_line_invariant (("npm install foo\nyarn add bar").toList)
      ⟨1, npmPinMsg, ("npm install foo").toList⟩ (by decide)⟩

/-- C2: an npm add of a scoped package `@scope/name` (alphabetic scope and
name, not subject to the cross-manager word exclusion) without a trailing
version is flagged with exactly one violation carrying the version-pin
message — the scope's leading `@` is not mistaken for a version pin — and
concretely `npm i @types/node` yields that one violation while
`npm i @types/node@18.0.0` yields none. -/
theorem c2_scoped_package (scope pkg : List Char) (n : Nat)
    (hs : scope ≠ []) (hp : pkg ≠ [])
    (hsa : scope.all isAlphaC = true) (hpa : pkg.all isAlphaC = true)
    (hmgr : otherManagerWord (("npm i @").toList ++ (scope ++ '/' :: pkg)) = false) :
    check_npm (("npm i @").toList ++ (scope ++ '/' :: pkg)) n =
      [{ line_num := n, message := npmPinMsg,
         line_content := trim (("npm i @").toList ++ (scope ++ '/' :: pkg)) }] ∧
    check_npm (("npm i @types/node").toList) n =
      [{ line_num := n, message := npmPinMsg,
         line_content := ("npm i @types/node").toList }] ∧
    check_npm (("npm i @types/node@18.0.0").toList) n = [] ∧
    containsSub ("version pin") npmPinMsg = true := by
  have hRns : (scope ++ '/' :: pkg).all (fun c => !isSpaceC c) = true := by
    simp only [List.all_append, List.all_cons, Bool.and_eq_true]
    refine ⟨?_, ?_, ?_⟩
    · exact all_imp (fun c hc => by simp [word_not_space (alpha_word hc)]) hsa
    · decide
    · exact all_imp (fun c hc => by simp [word_not_space (alpha_word hc)]) hpa
  have h2 : npmCiRe (("npm i @").toList ++ (scope ++ '/' :: pkg)) = false := by
    have e : npmCiRe (("npm i @").toList ++ (scope ++ '/' :: pkg)) =
        existsMatch ciAt (some '@') (scope ++ '/' :: pkg) := rfl
    rw [e]
    exact existsMatch_ciAt_false hRns _
  have h3 : npmInstallRe (("npm i @").toList ++ (scope ++ '/' :: pkg)) = true := rfl
  have hpin1 : pinAt ('@' :: (scope ++ '/' :: pkg)) = false := by
    cases scope with
    | nil => exact absurd rfl hs
    | cons c s' =>
      simp only [List.all_cons, Bool.and_eq_true] at hsa
      have hcd : isDigitC c = false := alpha_not_digit hsa.1
      simp [pinAt, stripDigits1, List.cons_append, hcd]
  have hpin2 : anyTail pinAt (scope ++ '/' :: pkg) = false := by
    apply pin_no_at
    intro x hx
    rcases List.mem_append.mp hx with hxs | hxc
    · refine word_ne_at (alpha_word ?_)
      rw [List.all_eq_true] at hsa
      exact hsa x hxs
    · rcases List.mem_cons.mp hxc with hxe | hxp
      · subst hxe; decide
      · refine word_ne_at (alpha_word ?_)
        rw [List.all_eq_true] at hpa
        exact hpa x hxp
  have h4 : versionPin (("npm i @").toList ++ (scope ++ '/' :: pkg)) = false := by
    have e : versionPin (("npm i @").toList ++ (scope ++ '/' :: pkg)) =
        (pinAt ('@' :: (scope ++ '/' :: pkg)) || anyTail pinAt (scope ++ '/' :: pkg)) := rfl
    rw [e, hpin1, hpin2]
    rfl
  have h5 : npmBareInstallRe (("npm i @").toList ++ (scope ++ '/' :: pkg)) = false := by
    have e : npmBareInstallRe (("npm i @").toList ++ (scope ++ '/' :: pkg)) =
        existsMatch bareAt (some '@') (scope ++ '/' :: pkg) := rfl
    rw [e]
    exact existsMatch_bareAt_false hRns _
  exact ⟨check_npm_eval n hmgr h2 h3 h4 h5, rfl, rfl, rfl⟩

/-- C2 witness: the statement instantiated with scope `types`, name `node`. -/
theorem c2_scoped_package_witness :
    (("types").toList ≠ ([] : List Char)) ∧
    otherManagerWord (("npm i @").toList ++ (("types").toList ++ '/' :: ("node").toList)) = false ∧
    check_npm (("npm i @").toList ++ (("types").toList ++ '/' :: ("node").toList)) 1 =
      [{ line_num := 1, message := npmPinMsg,
         line_content := trim (("npm i @").toList ++ (("types").toList ++ '/' :: ("node").toList)) }] :=
  ⟨by decide, rfl,
    (c2_scoped_package (("types").toList) (("node").toList) 1 (by decide) (by decide)
      (by decide) (by decide) rfl).1⟩

/-- C4: a pinned install `npm install name@M.N` (or `npm i ...`) yields no
npm violations; the same line without the `@M.N` suffix (word-character
package name, not subject to the cross-manager exclusion) yields exactly
one violation carrying the version-pin message; and bare invocations with
nothing or only `&&`, `;`, `|`, `#` after `npm install`/`npm i` yield the
single violation whose message says to use npm ci. -/
theorem c4_npm_rule (name M N : List Char) (n : Nat)
    (hn1 : name ≠ []) (hn2 : name.all isWordC = true)
    (hM1 : M ≠ []) (hM2 : M.all isDigitC = true)
    (hN1 : N ≠ []) (hN2 : N.all isDigitC = true)
    (hmgr1 : otherManagerWord (("npm install ").toList ++ name) = false)
    (hmgr2 : otherManagerWord (("npm i ").toList ++ name) = false) :
    check_npm (("npm install ").toList ++ (name ++ ('@' :: (M ++ '.' :: N)))) n = [] ∧
    check_npm (("npm i ").toList ++ (name ++ ('@' :: (M ++ '.' :: N)))) n = [] ∧
    check_npm (("npm install ").toList ++ name) n =
      [{ line_num := n, message := npmPinMsg,
         line_content := trim (("npm install ").toList ++ name) }] ∧
    check_npm (("npm i ").toList ++ name) n =
      [{ line_num := n, message := npmPinMsg,
         line_content := trim (("npm i ").toList ++ name) }] ∧
    containsSub ("version pin") npmPinMsg = true ∧
    check_npm (("npm install").toList) n =
      [{ line_num := n, message := npmCiMsg, line_content := ("npm install").toList }] ∧
    check_npm (("npm i").toList) n =
      [{ line_num := n, message := npmCiMsg, line_content := ("npm i").toList }] ∧
    check_npm (("npm install && make").toList) n =
      [{ line_num := n, message := npmCiMsg, line_content := ("npm install && make").toList }] ∧
    check_npm (("npm install ; echo done").toList) n =
      [{ line_num := n, message := npmCiMsg, line_content := ("npm install ; echo done").toList }] ∧
    check_npm (("npm install | tee log").toList) n =
      [{ line_num := n, message := npmCiMsg, line_content := ("npm install | tee log").toList }] ∧
    check_npm (("npm i # install deps").toList) n =
      [{ line_num := n, message := npmCiMsg, line_content := ("npm i # install deps").toList }] ∧
    containsSub ("npm ci") npmCiMsg = true := by
  have hpinSuffix : anyTail pinAt ('@' :: (M ++ '.' :: N)) = true := by
    have hp := pinAt_digits hM1 hM2 hN1 hN2
    simp [anyTail, hp]
  have hnns : name.all (fun c => !isSpaceC c) = true :=
    all_imp (fun c hc => by simp [word_not_space hc]) hn2
  have hA : check_npm (("npm install ").toList ++ (name ++ ('@' :: (M ++ '.' :: N)))) n = [] := by
    apply check_npm_pin_empty
    show anyTail pinAt _ = true
    rw [← List.append_assoc]
    exact anyTail_append_right _ hpinSuffix
  have hB : check_npm (("npm i ").toList ++ (name ++ ('@' :: (M ++ '.' :: N)))) n = [] := by
    apply check_npm_pin_empty
    show anyTail pinAt _ = true
    rw [← List.append_assoc]
    exact anyTail_append_right _ hpinSuffix
  have hC : check_npm (("npm install ").toList ++ name) n =
      [{ line_num := n, message := npmPinMsg,
         line_content := trim (("npm install ").toList ++ name) }] := by
    have h2 : npmCiRe (("npm install ").toList ++ name) = false := by
      have e : npmCiRe (("npm install ").toList ++ name) =
          existsMatch ciAt (some ' ') name := rfl
      rw [e]
      exact existsMatch_ciAt_false hnns _
    have h3 : npmInstallRe (("npm install ").toList ++ name) = true := rfl
    have h4 : versionPin (("npm install ").toList ++ name) = false := by
      have e : versionPin (("npm install ").toList ++ name) = anyTail pinAt name := rfl
      rw [e]
      refine pin_no_at (fun x hx => word_ne_at ?_)
      rw [List.all_eq_true] at hn2
      exact hn2 x hx
    have h5 : npmBareInstallRe (("npm install ").toList ++ name) = false := by
      have e : npmBareInstallRe (("npm install ").toList ++ name) =
          ((isTerminator (List.dropWhile isSpaceC name) || false) ||
            existsMatch bareAt (some ' ') name) := rfl
      rw [e, term_dropWhile_word hn1 hn2, existsMatch_bareAt_false hnns]
      rfl
    exact check_npm_eval n hmgr1 h2 h3 h4 h5
  have hD : check_npm (("npm i ").toList ++ name) n =
      [{ line_num := n, message := npmPinMsg,
         line_content := trim (("npm i ").toList ++ name) }] := by
    have h2 : npmCiRe (("npm i ").toList ++ name) = false := by
      have e : npmCiRe (("npm i ").toList ++ name) =
          existsMatch ciAt (some ' ') name := rfl
      rw [e]
      exact existsMatch_ciAt_false hnns _
    have h3 : npmInstallRe (("npm i ").toList ++ name) = true := rfl
    have h4 : versionPin (("npm i ").toList ++ name) = false := by
      have e : versionPin (("npm i ").toList ++ name) = anyTail pinAt name := rfl
      rw [e]
      refine pin_no_at (fun x hx => word_ne_at ?_)
      rw [List.all_eq_true] at hn2
      exact hn2 x hx
    have h5 : npmBareInstallRe (("npm i ").toList ++ name) = false := by
      have e : npmBareInstallRe (("npm i ").toList ++ name) =
          ((false || isTerminator (List.dropWhile isSpaceC name)) ||
            existsMatch bareAt (some ' ') name) := rfl
      rw [e, term_dropWhile_word hn1 hn2, existsMatch_bareAt_false hnns]
      rfl
    exact check_npm_eval n hmgr2 h2 h3 h4 h5
  exact ⟨hA, hB, hC, hD, rfl, rfl, rfl, rfl, rfl, rfl, rfl, rfl⟩

/-- C4 witness: the statement instantiated with name `eslint` and version
`8.50`. -/
theorem c4_npm_rule_witness :
    (("eslint").toList ≠ ([] : List Char)) ∧
    otherManagerWord (("npm install ").toList ++ ("eslint").toList) = false ∧
    check_npm (("npm install ").toList ++
      (("eslint").toList ++ ('@' :: (("8").toList ++ '.' :: ("50").toList)))) 1 = [] ∧
    check_npm (("npm install ").toList ++ ("eslint").toList) 1 =
      [{ line_num := 1, message := npmPinMsg,
         line_content := trim (("npm install ").toList ++ ("eslint").toList) }] :=
  ⟨by decide, rfl,
    (c4_npm_rule (("eslint").toList) (("8").toList) (("50").toList) 1 (by decide) (by decide)
      (by decide) (by decide) (by decide) (by decide) rfl rfl).1,
    (c4_npm_rule (("eslint").toList) (("8").toList) (("50").toList) 1 (by decide) (by decide)
      (by decide) (by decide) (by decide) (by decide) rfl rfl).2.2.1⟩
